import Mathlib

/-!
Shallow embedding of `src/singly_linked_list.h` (namespace `sl_list`):
an intrusive singly linked list over externally allocated nodes.

Modelling conventions:
* Node addresses are natural numbers (`Addr`); a C++ `node<T>*` is an
  `Option Addr` (`none` = `nullptr`).
* The ambient memory holding the caller-allocated nodes is a total map
  `Heap : Addr → node`; `node.data` models the opaque payload pointer
  `T *data` as an `Option Nat` that the container never inspects, and
  `node.next_node` models the `next_node` pointer.
* The C++ `handler` object owns only `_head`; since its member functions
  read and write node memory, the embedded `handler` state carries the
  heap together with `_head`, and mutating members are state passing
  functions.
* The `ERROR`/`INFO`/`WARN` diagnostic macros are an external sink; each
  operation that can invoke them also returns the list of emitted
  severities (`List Sev`), in emission order.
* The C++ traversal loops (`find`, `find_preceding_node`) can diverge on a
  heap that violates the chain invariant, so they are embedded with an
  explicit fuel parameter and return `none` exactly when the fuel runs
  out; on invariant-satisfying states a fuel of `length + 1` is proved
  sufficient.
-/

namespace sl_list

/-- A node address. `node<T>*` is modelled as `Option Addr`. -/
abbrev Addr := Nat

/-- The C++ `struct node`: a payload pointer and a next pointer. -/
structure node where
  data : Option Nat
  next_node : Option Addr
  deriving DecidableEq

/-- The caller-owned memory in which the nodes live. -/
abbrev Heap := Addr → node

/-- Writing `x->next_node = v` at address `a`. -/
def setNext (h : Heap) (a : Addr) (v : Option Addr) : Heap :=
  fun b => if b = a then { h b with next_node := v } else h b

/-- Severity levels of the diagnostic sink (`INFO` / `WARN` / `ERROR`). -/
inductive Sev where
  | info
  | warn
  | error
  deriving DecidableEq

/-- The C++ `class handler`: the `_head` member plus the node memory it
operates on. -/
structure handler where
  heap : Heap
  _head : Option Addr

/-- `handler()` : the default-constructed handler (`_head = nullptr`)
over a given ambient memory. -/
def emptyHandler (h : Heap) : handler :=
  ⟨h, none⟩

/-- `handler::next`: if `current_pos == nullptr` return it, else return
`current_pos->next_node`. -/
def next (h : Heap) (current_pos : Option Addr) : Option Addr :=
  match current_pos with
  | none => none
  | some a => (h a).next_node

/-- `handler::head`: returns `_head`. -/
def head (st : handler) : Option Addr :=
  st._head

/-- The `while (seek_node != nullptr)` loop of `handler::find`.
Consumes one unit of fuel per loop-condition test; `none` = fuel ran out
(the C++ loop would still be running). -/
def findLoop (h : Heap) (target : Option Addr) : Nat → Option Addr → Option (Option Addr)
  | 0, _ => none
  | fuel + 1, seek =>
    match seek with
    | none => some none
    | some a =>
      if some a = target then some (some a)
      else findLoop h target fuel (next h (some a))

/-- `handler::find`: head is tested first (`if (seek_node == node) return
_head;`), then the chain is walked. -/
def find (st : handler) (target : Option Addr) (fuel : Nat) : Option (Option Addr) :=
  if st._head = target then some st._head
  else findLoop st.heap target fuel st._head

/-- The `while (next(seek_head) != target_node)` loop of
`handler::find_preceding_node`. `seek_head` is a non-null pointer on
every entry to the loop test, hence the `Addr` argument; the inner
`if (seek_head == nullptr) break;` is the `some none` branch. -/
def fpnLoop (h : Heap) (target : Option Addr) : Nat → Addr → Option (Option Addr)
  | 0, _ => none
  | fuel + 1, a =>
    if next h (some a) = target then some (some a)
    else
      match next h (some a) with
      | none => some none
      | some b => fpnLoop h target fuel b

/-- `handler::find_preceding_node`: warns and returns `nullptr` on an
empty list, returns the head itself when the target is the head, and
otherwise walks the chain looking for a node whose `next` is the
target. -/
def find_preceding_node (st : handler) (target : Option Addr) (fuel : Nat) :
    Option (Option Addr × List Sev) :=
  match st._head with
  | none => some (none, [Sev.warn])
  | some a =>
    if some a = target then some (some a, [])
    else (fpnLoop st.heap target fuel a).map (fun r => (r, []))

/-- `handler::tail`: `find_preceding_node(nullptr)`. -/
def tail (st : handler) (fuel : Nat) : Option (Option Addr × List Sev) :=
  find_preceding_node st none fuel

/-- `handler::clean_next_ptr`: no-op on `nullptr`, otherwise clears the
node's `next_node`. -/
def clean_next_ptr (st : handler) (target : Option Addr) : handler :=
  match target with
  | none => st
  | some a => { st with heap := setNext st.heap a none }

/-- `handler::append`: if the list is empty the new node becomes `_head`,
otherwise `tail()->next_node = new_node`.  Writing through the tail
pointer models `ptr->next_node = new_node`; the (unreachable under the
chain invariant) case where `tail()` returns `nullptr` would be a null
dereference and is mapped to `none`, as is fuel exhaustion inside
`tail()`. -/
def append (st : handler) (new_node : Option Addr) (fuel : Nat) :
    Option (handler × List Sev) :=
  match st._head with
  | none => some ({ st with _head := new_node }, [])
  | some _ =>
    match tail st fuel with
    | none => none
    | some (none, _) => none
    | some (some p, log) =>
      some ({ st with heap := setNext st.heap p new_node }, log)

/-- `handler::remove`: head case first, then `find_preceding_node`; on
`nullptr` answer report failure (`true`, i.e. the C++ `return 1`), else
splice (`preceding_node->next_node = next(preceding_node->next_node)`)
and clear the removed node's `next`.  `false` is the C++ `return 0`
(success). -/
def remove (st : handler) (target : Option Addr) (fuel : Nat) :
    Option (Bool × handler × List Sev) :=
  if target = st._head then
    let st1 : handler := { st with _head := next st.heap target }
    some (false, clean_next_ptr st1 target, [])
  else
    match find_preceding_node st target fuel with
    | none => none
    | some (none, log) => some (true, st, log ++ [Sev.error])
    | some (some p, log) =>
      let h1 := setNext st.heap p (next st.heap (st.heap p).next_node)
      some (false, clean_next_ptr { st with heap := h1 } target, log ++ [Sev.info])

/-- Repeated `append` of a list of node addresses (the "sequence of
appends" of the specification), all with the same fuel. -/
def appendAll (fuel : Nat) : handler → List Addr → Option handler
  | st, [] => some st
  | st, a :: as =>
    match append st (some a) fuel with
    | none => none
    | some (st', _) => appendAll fuel st' as

/-- The last element of an address list, `none` if empty. -/
def lastAddr : List Addr → Option Addr
  | [] => none
  | [a] => some a
  | _ :: b :: bs => lastAddr (b :: bs)

/-- `chainTo h p ns q`: starting at pointer `p` and following
`next_node` fields in heap `h` visits exactly the addresses `ns`, in
order, and ends at the pointer `q`. -/
def chainTo (h : Heap) : Option Addr → List Addr → Option Addr → Prop
  | p, [], q => p = q
  | p, a :: as, q => p = some a ∧ chainTo h (h a).next_node as q

/-- The list shape: from `p`, following `next` visits `ns` and ends at
`nullptr`. -/
def chain (h : Heap) (p : Option Addr) (ns : List Addr) : Prop :=
  chainTo h p ns none

/-- The chain invariant of the specification: from `_head`, following
`next` reaches every node of `ns` exactly once and terminates at
`nullptr`. -/
def invariant (st : handler) (ns : List Addr) : Prop :=
  chain st.heap st._head ns ∧ ns.Nodup

/-- A concrete ambient memory: every node has a null payload pointer and a
null next pointer. -/
def h0 : Heap :=
  fun _ => { data := none, next_node := none }

/-- A concrete ambient memory in which node 1 points at node 2. -/
def h12 : Heap :=
  fun b => if b = 1 then { data := none, next_node := some 2 } else { data := none, next_node := none }

/-- A concrete handler holding the one-node list `[1]`. -/
def st1 : handler :=
  { heap := h0, _head := some 1 }

/-- A concrete handler holding the two-node list `[1, 2]`. -/
def st12 : handler :=
  { heap := h12, _head := some 1 }

theorem chainTo_nil {h : Heap} {p q : Option Addr} : chainTo h p [] q ↔ p = q :=
  Iff.rfl

theorem chainTo_cons {h : Heap} {p q : Option Addr} {a : Addr} {as : List Addr} :
    chainTo h p (a :: as) q ↔ p = some a ∧ chainTo h (h a).next_node as q :=
  Iff.rfl

@[simp] theorem next_none {h : Heap} : next h none = none := rfl

@[simp] theorem next_some {h : Heap} {a : Addr} : next h (some a) = (h a).next_node := rfl

theorem setNext_ne {h : Heap} {a b : Addr} {v : Option Addr} (hb : b ≠ a) :
    setNext h a v b = h b := by
  simp [setNext, hb]

@[simp] theorem setNext_self {h : Heap} {a : Addr} {v : Option Addr} :
    (setNext h a v a).next_node = v := by
  simp [setNext]

@[simp] theorem setNext_data {h : Heap} {a b : Addr} {v : Option Addr} :
    (setNext h a v b).data = (h b).data := by
  by_cases hb : b = a <;> simp [setNext, hb]

theorem setNext_id {h : Heap} {a : Addr} {v : Option Addr} (hv : (h a).next_node = v) :
    ∀ b, setNext h a v b = h b := by
  intro b
  by_cases hb : b = a
  · subst hb
    have : h b = { data := (h b).data, next_node := (h b).next_node } := rfl
    rw [setNext, if_pos rfl, ← hv]
  · exact setNext_ne hb

@[simp] theorem lastAddr_nil : lastAddr [] = none := rfl

@[simp] theorem lastAddr_singleton {a : Addr} : lastAddr [a] = some a := rfl

@[simp] theorem lastAddr_cons_cons {a b : Addr} {bs : List Addr} :
    lastAddr (a :: b :: bs) = lastAddr (b :: bs) := rfl

theorem lastAddr_isSome {a : Addr} : ∀ (as : List Addr), ∃ p, lastAddr (a :: as) = some p := by
  intro as
  induction as generalizing a with
  | nil => exact ⟨a, rfl⟩
  | cons b bs ih => simpa using ih (a := b)

theorem mem_of_lastAddr : ∀ {ns : List Addr} {b : Addr}, lastAddr ns = some b → b ∈ ns := by
  intro ns
  induction ns with
  | nil => simp
  | cons a as ih =>
    intro b hb
    cases as with
    | nil =>
      simp at hb
      simp [hb]
    | cons c cs =>
      rw [lastAddr_cons_cons] at hb
      exact List.mem_cons_of_mem a (ih hb)

theorem lastAddr_append_singleton {a : Addr} : ∀ (l : List Addr), lastAddr (l ++ [a]) = some a := by
  intro l
  induction l with
  | nil => rfl
  | cons b bs ih =>
    cases hbs : bs ++ [a] with
    | nil => simp at hbs
    | cons c cs =>
      show lastAddr (b :: (bs ++ [a])) = some a
      rw [hbs, lastAddr_cons_cons, ← hbs, ih]

theorem chainTo_join {h : Heap} :
    ∀ {xs : List Addr} {p q : Option Addr} {ys : List Addr} {r : Option Addr},
      chainTo h p xs q → chainTo h q ys r → chainTo h p (xs ++ ys) r := by
  intro xs
  induction xs with
  | nil =>
    intro p q ys r h1 h2
    rw [chainTo_nil] at h1
    simpa [h1] using h2
  | cons a as ih =>
    intro p q ys r h1 h2
    obtain ⟨rfl, hrest⟩ := h1
    exact ⟨rfl, ih hrest h2⟩

theorem chainTo_split {h : Heap} :
    ∀ {xs : List Addr} {p : Option Addr} {ys : List Addr} {r : Option Addr},
      chainTo h p (xs ++ ys) r → ∃ q, chainTo h p xs q ∧ chainTo h q ys r := by
  intro xs
  induction xs with
  | nil =>
    intro p ys r hc
    exact ⟨p, rfl, hc⟩
  | cons a as ih =>
    intro p ys r hc
    obtain ⟨rfl, hrest⟩ := hc
    obtain ⟨q, h1, h2⟩ := ih hrest
    exact ⟨q, ⟨rfl, h1⟩, h2⟩

theorem chainTo_setNext {h : Heap} {a : Addr} {v : Option Addr} :
    ∀ {ns : List Addr} {p q : Option Addr}, a ∉ ns →
      (chainTo (setNext h a v) p ns q ↔ chainTo h p ns q) := by
  intro ns
  induction ns with
  | nil => intro p q _; rfl
  | cons b bs ih =>
    intro p q hmem
    have hb : b ≠ a := fun hba => hmem (by simp [hba])
    have hbs : a ∉ bs := fun hm => hmem (List.mem_cons_of_mem b hm)
    rw [chainTo_cons, chainTo_cons, setNext_ne hb, ih hbs]

theorem chain_head_none {h : Heap} {ns : List Addr} (hc : chainTo h none ns none) :
    ns = [] := by
  cases ns with
  | nil => rfl
  | cons a as => exact absurd hc.1 (by simp)

theorem chain_head_cons {h : Heap} {a : Addr} :
    ∀ {ns : List Addr}, chainTo h (some a) ns none → ∃ as, ns = a :: as := by
  intro ns hc
  cases ns with
  | nil => exact absurd (chainTo_nil.mp hc) (by simp)
  | cons b bs =>
    obtain ⟨hb, -⟩ := hc
    exact ⟨bs, by injection hb with hb; rw [hb]⟩

theorem chainTo_head_eq {h : Heap} {p q : Option Addr} :
    ∀ {ns : List Addr}, chainTo h p ns q → p = (ns.head?.map some).getD q := by
  intro ns hc
  cases ns with
  | nil => simpa using hc
  | cons a as => simpa using hc.1

theorem chainTo_lastAddr_next {h : Heap} :
    ∀ {ns : List Addr} {p q : Option Addr} {b : Addr},
      chainTo h p ns q → lastAddr ns = some b → (h b).next_node = q := by
  intro ns
  induction ns with
  | nil => simp
  | cons a as ih =>
    intro p q b hc hlast
    obtain ⟨rfl, hrest⟩ := hc
    cases as with
    | nil =>
      simp at hlast
      subst hlast
      exact hrest
    | cons c cs =>
      rw [lastAddr_cons_cons] at hlast
      exact ih hrest hlast

theorem chainTo_setNext_lastAddr {h : Heap} {v : Option Addr} :
    ∀ {ns : List Addr} {p q : Option Addr} {b : Addr},
      chainTo h p ns q → ns.Nodup → lastAddr ns = some b →
      chainTo (setNext h b v) p ns v := by
  intro ns
  induction ns with
  | nil => simp
  | cons a as ih =>
    intro p q b hc hnd hlast
    obtain ⟨rfl, hrest⟩ := hc
    cases as with
    | nil =>
      simp at hlast
      subst hlast
      exact ⟨rfl, by simp [chainTo_nil]⟩
    | cons c cs =>
      rw [lastAddr_cons_cons] at hlast
      have hbmem : b ∈ c :: cs := mem_of_lastAddr hlast
      have hba : a ≠ b := by
        rintro rfl
        exact (List.nodup_cons.mp hnd).1 hbmem
      refine ⟨rfl, ?_⟩
      rw [setNext_ne hba]
      exact ih hrest (List.nodup_cons.mp hnd).2 hlast

theorem chain_split {h : Heap} :
    ∀ {ns : List Addr} {p : Option Addr} {q : Addr},
      chainTo h p ns none → q ∈ ns →
      ∃ l1 l2, ns = l1 ++ q :: l2 ∧ (h q).next_node = l2.head? := by
  intro ns
  induction ns with
  | nil => simp
  | cons a as ih =>
    intro p q hc hq
    obtain ⟨rfl, hrest⟩ := hc
    rcases List.mem_cons.mp hq with rfl | hq'
    · refine ⟨[], as, rfl, ?_⟩
      cases as with
      | nil => simpa using hrest
      | cons b bs => simpa using hrest.1
    · obtain ⟨l1, l2, rfl, hnext⟩ := ih hrest hq'
      exact ⟨a :: l1, l2, rfl, hnext⟩

theorem chain_no_pred_of_head {h : Heap} {b : Addr} {bs : List Addr}
    (hc : chainTo h (some b) (b :: bs) none) (hnd : (b :: bs).Nodup)
    {q : Addr} (hq : q ∈ b :: bs) : (h q).next_node ≠ some b := by
  intro hqn
  obtain ⟨l1, l2, heq, hnext⟩ := chain_split hc hq
  rw [hqn] at hnext
  have hbbs : b ∉ bs := (List.nodup_cons.mp hnd).1
  cases l2 with
  | nil => simp at hnext
  | cons c t =>
    have hcb : c = b := by simpa using hnext.symm
    subst hcb
    cases l1 with
    | nil =>
      simp only [List.nil_append] at heq
      injection heq with h1 h2
      exact hbbs (by rw [h2]; simp)
    | cons d l1' =>
      simp only [List.cons_append] at heq
      injection heq with h1 h2
      exact hbbs (by rw [h2]; simp)

theorem chain_pred_unique {h : Heap} :
    ∀ {ns : List Addr} {p : Option Addr} {m q q' : Addr},
      chainTo h p ns none → ns.Nodup → q ∈ ns → q' ∈ ns →
      (h q).next_node = some m → (h q').next_node = some m → q = q' := by
  intro ns
  induction ns with
  | nil => simp
  | cons a as ih =>
    intro p m q q' hc hnd hq hq' hqm hq'm
    obtain ⟨rfl, hrest⟩ := hc
    have hnd' : as.Nodup := (List.nodup_cons.mp hnd).2
    rcases List.mem_cons.mp hq with rfl | hq1 <;> rcases List.mem_cons.mp hq' with rfl | hq'1
    · rfl
    · exfalso
      cases as with
      | nil => simp at hq'1
      | cons b bs =>
        have hmb : m = b := by
          have := hrest.1
          rw [hqm] at this
          injection this
        subst hmb
        have hchain : chainTo h (some m) (m :: bs) none := ⟨rfl, hrest.2⟩
        exact chain_no_pred_of_head hchain hnd' hq'1 hq'm
    · exfalso
      cases as with
      | nil => simp at hq1
      | cons b bs =>
        have hmb : m = b := by
          have := hrest.1
          rw [hq'm] at this
          injection this
        subst hmb
        have hchain : chainTo h (some m) (m :: bs) none := ⟨rfl, hrest.2⟩
        exact chain_no_pred_of_head hchain hnd' hq1 hqm
    · exact ih hrest hnd' hq1 hq'1 hqm hq'm

theorem findLoop_spec {h : Heap} {n : Addr} :
    ∀ {ns : List Addr} {p : Option Addr} {fuel : Nat},
      chainTo h p ns none → ns.length + 1 ≤ fuel →
      findLoop h (some n) fuel p = some (if n ∈ ns then some n else none) := by
  intro ns
  induction ns with
  | nil =>
    intro p fuel hc hfuel
    obtain ⟨f, rfl⟩ : ∃ f, fuel = f + 1 := ⟨fuel - 1, by omega⟩
    rw [chainTo_nil] at hc
    subst hc
    simp [findLoop]
  | cons a as ih =>
    intro p fuel hc hfuel
    obtain ⟨f, rfl⟩ : ∃ f, fuel = f + 1 := ⟨fuel - 1, by omega⟩
    obtain ⟨rfl, hrest⟩ := hc
    by_cases han : a = n
    · subst han
      simp [findLoop]
    · have hstep : findLoop h (some n) (f + 1) (some a) = findLoop h (some n) f (h a).next_node := by
        simp [findLoop, han]
      rw [hstep, ih hrest (by simp only [List.length_cons] at hfuel; omega)]
      have hna : ¬n = a := fun hna => han hna.symm
      simp [List.mem_cons, hna]

theorem findLoop_isSome {h : Heap} {t : Option Addr} :
    ∀ {ns : List Addr} {p : Option Addr} {fuel : Nat},
      chainTo h p ns none → ns.length + 1 ≤ fuel → (findLoop h t fuel p).isSome := by
  intro ns
  induction ns with
  | nil =>
    intro p fuel hc hfuel
    obtain ⟨f, rfl⟩ : ∃ f, fuel = f + 1 := ⟨fuel - 1, by omega⟩
    rw [chainTo_nil] at hc
    subst hc
    simp [findLoop]
  | cons a as ih =>
    intro p fuel hc hfuel
    obtain ⟨f, rfl⟩ : ∃ f, fuel = f + 1 := ⟨fuel - 1, by omega⟩
    obtain ⟨rfl, hrest⟩ := hc
    by_cases hat : some a = t
    · simp [findLoop, hat]
    · have hstep : findLoop h t (f + 1) (some a) = findLoop h t f (h a).next_node := by
        simp [findLoop, hat]
      rw [hstep]
      exact ih hrest (by simp only [List.length_cons] at hfuel; omega)

theorem fpnLoop_none_spec {h : Heap} :
    ∀ {as : List Addr} {a : Addr} {fuel : Nat},
      chainTo h (some a) (a :: as) none → as.length + 1 ≤ fuel →
      fpnLoop h none fuel a = some (lastAddr (a :: as)) := by
  intro as
  induction as with
  | nil =>
    intro a fuel hc hfuel
    obtain ⟨f, rfl⟩ : ∃ f, fuel = f + 1 := ⟨fuel - 1, by omega⟩
    obtain ⟨-, hrest⟩ := hc
    rw [chainTo_nil] at hrest
    simp [fpnLoop, hrest]
  | cons b bs ih =>
    intro a fuel hc hfuel
    obtain ⟨f, rfl⟩ : ∃ f, fuel = f + 1 := ⟨fuel - 1, by omega⟩
    obtain ⟨-, hb, hrest⟩ := hc
    have hstep : fpnLoop h none (f + 1) a = fpnLoop h none f b := by
      simp [fpnLoop, hb]
    rw [hstep, lastAddr_cons_cons]
    exact ih ⟨rfl, hrest⟩ (by simp only [List.length_cons] at hfuel; omega)

theorem fpnLoop_notfound {h : Heap} {n : Addr} :
    ∀ {as : List Addr} {a : Addr} {fuel : Nat},
      chainTo h (some a) (a :: as) none → n ∉ a :: as → as.length + 1 ≤ fuel →
      fpnLoop h (some n) fuel a = some none := by
  intro as
  induction as with
  | nil =>
    intro a fuel hc hn hfuel
    obtain ⟨f, rfl⟩ : ∃ f, fuel = f + 1 := ⟨fuel - 1, by omega⟩
    obtain ⟨-, hrest⟩ := hc
    rw [chainTo_nil] at hrest
    simp [fpnLoop, hrest]
  | cons b bs ih =>
    intro a fuel hc hn hfuel
    obtain ⟨f, rfl⟩ : ∃ f, fuel = f + 1 := ⟨fuel - 1, by omega⟩
    obtain ⟨-, hb, hrest⟩ := hc
    have hbn : ¬(b = n) := fun hbn => hn (by simp [hbn])
    have hstep : fpnLoop h (some n) (f + 1) a = fpnLoop h (some n) f b := by
      simp [fpnLoop, hb, hbn]
    rw [hstep]
    exact ih ⟨rfl, hrest⟩ (fun hm => hn (List.mem_cons_of_mem _ hm))
      (by simp only [List.length_cons] at hfuel; omega)

theorem fpnLoop_found {h : Heap} {n : Addr} {ys : List Addr} :
    ∀ {xs : List Addr} {a : Addr} {fuel : Nat},
      chainTo h (some a) (a :: (xs ++ n :: ys)) none →
      (a :: (xs ++ n :: ys)).Nodup →
      (xs ++ n :: ys).length + 1 ≤ fuel →
      ∃ p, fpnLoop h (some n) fuel a = some (some p) ∧ lastAddr (a :: xs) = some p ∧
        (h p).next_node = some n := by
  intro xs
  induction xs with
  | nil =>
    intro a fuel hc hnd hfuel
    obtain ⟨f, rfl⟩ : ∃ f, fuel = f + 1 := ⟨fuel - 1, by omega⟩
    obtain ⟨-, hb, hrest⟩ := hc
    exact ⟨a, by simp [fpnLoop, hb], rfl, hb⟩
  | cons b xs' ih =>
    intro a fuel hc hnd hfuel
    obtain ⟨f, rfl⟩ : ∃ f, fuel = f + 1 := ⟨fuel - 1, by omega⟩
    obtain ⟨-, hb, hrest⟩ := hc
    have hnd' : (b :: (xs' ++ n :: ys)).Nodup := (List.nodup_cons.mp hnd).2
    have hbn : ¬(b = n) := by
      intro hbn
      exact (List.nodup_cons.mp hnd').1 (by rw [hbn]; simp)
    have hstep : fpnLoop h (some n) (f + 1) a = fpnLoop h (some n) f b := by
      simp [fpnLoop, hb, hbn]
    have hfuel' : (xs' ++ n :: ys).length + 1 ≤ f := by
      simp only [List.cons_append, List.length_cons, List.length_append] at hfuel
      simp only [List.length_append, List.length_cons]
      omega
    obtain ⟨p, h1, h2, h3⟩ := ih ⟨rfl, hrest⟩ hnd' hfuel'
    exact ⟨p, by rw [hstep]; exact h1, by rw [lastAddr_cons_cons]; exact h2, h3⟩

theorem fpnLoop_isSome {h : Heap} {t : Option Addr} :
    ∀ {as : List Addr} {a : Addr} {fuel : Nat},
      chainTo h (some a) (a :: as) none → as.length + 1 ≤ fuel →
      (fpnLoop h t fuel a).isSome := by
  intro as
  induction as with
  | nil =>
    intro a fuel hc hfuel
    obtain ⟨f, rfl⟩ : ∃ f, fuel = f + 1 := ⟨fuel - 1, by omega⟩
    obtain ⟨-, hrest⟩ := hc
    rw [chainTo_nil] at hrest
    by_cases ht : (h a).next_node = t
    · simp [fpnLoop, ht]
    · rw [hrest] at ht
      simp [fpnLoop, hrest, ht]
  | cons b bs ih =>
    intro a fuel hc hfuel
    obtain ⟨f, rfl⟩ : ∃ f, fuel = f + 1 := ⟨fuel - 1, by omega⟩
    obtain ⟨-, hb, hrest⟩ := hc
    by_cases ht : (h a).next_node = t
    · simp [fpnLoop, ht]
    · rw [hb] at ht
      have hstep : fpnLoop h t (f + 1) a = fpnLoop h t f b := by
        simp [fpnLoop, hb, ht]
      rw [hstep]
      exact ih ⟨rfl, hrest⟩ (by simp only [List.length_cons] at hfuel; omega)

theorem fpn_empty {st : handler} {t : Option Addr} {fuel : Nat} (hh : st._head = none) :
    find_preceding_node st t fuel = some (none, [Sev.warn]) := by
  simp [find_preceding_node, hh]

theorem fpn_head {st : handler} {n : Addr} {fuel : Nat} (hh : st._head = some n) :
    find_preceding_node st (some n) fuel = some (some n, []) := by
  simp [find_preceding_node, hh]

theorem fpn_notfound {st : handler} {ns : List Addr} {n : Addr} {fuel : Nat}
    (hc : chain st.heap st._head ns) (hn : n ∉ ns) (hfuel : ns.length + 1 ≤ fuel) :
    find_preceding_node st (some n) fuel =
      some (none, if ns = [] then [Sev.warn] else []) := by
  rcases ns with _ | ⟨a, as⟩
  · have hhn : st._head = none := hc
    rw [fpn_empty hhn]
    simp
  · obtain ⟨hha, hrest⟩ := hc
    have hfuel' : as.length + 1 ≤ fuel := by
      simp only [List.length_cons] at hfuel
      omega
    have hloop := fpnLoop_notfound ⟨rfl, hrest⟩ hn hfuel'
    have han : ¬(some a = some n) := by
      intro hEq
      injection hEq with hEq
      exact hn (by rw [hEq]; simp)
    simp [find_preceding_node, hha, han, hloop]

theorem fpn_found_spec {st : handler} {ns : List Addr} {n : Addr} {fuel : Nat}
    (hinv : invariant st ns) (hn : n ∈ ns) (hh : st._head ≠ some n)
    (hfuel : ns.length + 1 ≤ fuel) :
    ∃ a xs ys p, ns = a :: (xs ++ n :: ys) ∧ st._head = some a ∧
      find_preceding_node st (some n) fuel = some (some p, []) ∧
      lastAddr (a :: xs) = some p ∧ (st.heap p).next_node = some n := by
  obtain ⟨hc, hnd⟩ := hinv
  rcases ns with _ | ⟨a, as⟩
  · simp at hn
  · obtain ⟨hha, hrest⟩ := hc
    have han : ¬(a = n) := by
      intro hEq
      exact hh (by rw [hha, hEq])
    have hnas : n ∈ as := by
      rcases List.mem_cons.mp hn with rfl | hmm
      · exact absurd rfl han
      · exact hmm
    obtain ⟨xs, ys, rfl⟩ := List.append_of_mem hnas
    have hfuel' : (xs ++ n :: ys).length + 1 ≤ fuel := by
      simp only [List.length_cons] at hfuel
      omega
    obtain ⟨p, hl, hlast, hpn⟩ := fpnLoop_found ⟨rfl, hrest⟩ hnd hfuel'
    refine ⟨a, xs, ys, p, rfl, hha, ?_, hlast, hpn⟩
    have hsan : ¬(some a = some n) := by simp [han]
    simp [find_preceding_node, hha, hsan, hl]

theorem fpn_isSome {st : handler} {ns : List Addr} {t : Option Addr} {fuel : Nat}
    (hc : chain st.heap st._head ns) (hfuel : ns.length + 1 ≤ fuel) :
    (find_preceding_node st t fuel).isSome := by
  rcases hsh : st._head with _ | a
  · simp [find_preceding_node, hsh]
  · rw [chain, hsh] at hc
    obtain ⟨as, rfl⟩ := chain_head_cons hc
    have hfuel' : as.length + 1 ≤ fuel := by
      simp only [List.length_cons] at hfuel
      omega
    by_cases hat : some a = t
    · subst hat
      simp [find_preceding_node, hsh]
    · have hl := fpnLoop_isSome (t := t) hc hfuel'
      obtain ⟨r, hr⟩ := Option.isSome_iff_exists.mp hl
      simp [find_preceding_node, hsh, hat, hr]

theorem tail_empty {st : handler} {fuel : Nat} (hh : st._head = none) :
    tail st fuel = some (none, [Sev.warn]) :=
  fpn_empty hh

theorem tail_spec {st : handler} {ns : List Addr} {fuel : Nat}
    (hc : chain st.heap st._head ns) (hne : ns ≠ []) (hfuel : ns.length + 1 ≤ fuel) :
    tail st fuel = some (lastAddr ns, []) := by
  rcases ns with _ | ⟨a, as⟩
  · exact absurd rfl hne
  · obtain ⟨hha, hrest⟩ := hc
    have hfuel' : as.length + 1 ≤ fuel := by
      simp only [List.length_cons] at hfuel
      omega
    have hloop := fpnLoop_none_spec ⟨rfl, hrest⟩ hfuel'
    simp [tail, find_preceding_node, hha, hloop]

theorem find_spec_mem {st : handler} {ns : List Addr} {n : Addr} {fuel : Nat}
    (hc : chain st.heap st._head ns) (hfuel : ns.length + 1 ≤ fuel) :
    find st (some n) fuel = some (if n ∈ ns then some n else none) := by
  by_cases hh : st._head = some n
  · have hc' : chainTo st.heap (some n) ns none := by rw [← hh]; exact hc
    obtain ⟨as, rfl⟩ := chain_head_cons hc'
    simp [find, hh]
  · have hl := findLoop_spec (n := n) hc hfuel
    simp [find, hh, hl]

theorem find_isSome {st : handler} {ns : List Addr} {t : Option Addr} {fuel : Nat}
    (hc : chain st.heap st._head ns) (hfuel : ns.length + 1 ≤ fuel) :
    (find st t fuel).isSome := by
  by_cases hh : st._head = t
  · simp [find, hh]
  · have hl := findLoop_isSome (t := t) hc hfuel
    obtain ⟨r, hr⟩ := Option.isSome_iff_exists.mp hl
    simp [find, hh, hr]

theorem append_empty {st : handler} {t : Option Addr} {fuel : Nat} (hh : st._head = none) :
    append st t fuel = some ({ st with _head := t }, []) := by
  simp [append, hh]

theorem append_nonempty {st : handler} {ns : List Addr} {t : Option Addr} {fuel : Nat}
    (hc : chain st.heap st._head ns) (hne : ns ≠ []) (hfuel : ns.length + 1 ≤ fuel) :
    ∃ st', append st t fuel = some (st', []) := by
  rcases ns with _ | ⟨a, as⟩
  · exact absurd rfl hne
  · have hsh : st._head = some a := hc.1
    have htail := tail_spec hc (by simp) hfuel
    obtain ⟨L, hlast⟩ := lastAddr_isSome (a := a) as
    rw [hlast] at htail
    exact ⟨{ st with heap := setNext st.heap L t }, by simp [append, hsh, htail]⟩

theorem append_isSome {st : handler} {ns : List Addr} {t : Option Addr} {fuel : Nat}
    (hc : chain st.heap st._head ns) (hfuel : ns.length + 1 ≤ fuel) :
    (append st t fuel).isSome := by
  rcases ns with _ | ⟨a, as⟩
  · have hhn : st._head = none := hc
    rw [append_empty hhn]
    rfl
  · obtain ⟨st', hst'⟩ := append_nonempty hc (by simp) hfuel
    rw [hst']
    rfl

theorem append_spec {st : handler} {ns : List Addr} {a : Addr} {fuel : Nat}
    (hinv : invariant st ns) (hfresh : (st.heap a).next_node = none) (hmem : a ∉ ns)
    (hfuel : ns.length + 1 ≤ fuel) :
    ∃ st', append st (some a) fuel = some (st', []) ∧ invariant st' (ns ++ [a]) ∧
      st'._head = (ns ++ [a]).head? ∧ ∀ b, b ∉ ns → st'.heap b = st.heap b := by
  obtain ⟨hc, hnd⟩ := hinv
  rcases ns with _ | ⟨b, as⟩
  · have hhn : st._head = none := hc
    refine ⟨{ st with _head := some a }, append_empty hhn, ⟨⟨rfl, hfresh⟩, by simp⟩, by simp, ?_⟩
    intro b _
    rfl
  · have hsh : st._head = some b := hc.1
    have htail := tail_spec hc (by simp) hfuel
    obtain ⟨L, hlast⟩ := lastAddr_isSome (a := b) as
    rw [hlast] at htail
    have hLmem : L ∈ b :: as := mem_of_lastAddr hlast
    have haL : a ≠ L := fun hEq => hmem (hEq ▸ hLmem)
    refine ⟨{ st with heap := setNext st.heap L (some a) }, by simp [append, hsh, htail],
      ⟨?_, ?_⟩, by simp [hsh], ?_⟩
    · have h1 : chainTo (setNext st.heap L (some a)) st._head (b :: as) (some a) :=
        chainTo_setNext_lastAddr hc hnd hlast
      have h2 : chainTo (setNext st.heap L (some a)) (some a) [a] none :=
        ⟨rfl, by rw [chainTo_nil, setNext_ne haL]; exact hfresh⟩
      exact chainTo_join h1 h2
    · rw [List.nodup_append]
      refine ⟨hnd, List.nodup_singleton a, ?_⟩
      intro x hx hx'
      simp at hx'
      subst hx'
      exact hmem hx
    · intro b' hb'
      have hb'L : b' ≠ L := fun hEq => hb' (hEq ▸ hLmem)
      exact setNext_ne hb'L

theorem remove_head {st : handler} {ns : List Addr} {n : Addr} {rest : List Addr} {fuel : Nat}
    (hinv : invariant st ns) (hns : ns = n :: rest) :
    ∃ st', remove st (some n) fuel = some (false, st', []) ∧ invariant st' rest ∧
      st'._head = rest.head? ∧ (st'.heap n).next_node = none ∧
      (st'.heap n).data = (st.heap n).data ∧ ∀ b, b ≠ n → st'.heap b = st.heap b := by
  obtain ⟨hc, hnd⟩ := hinv
  subst hns
  obtain ⟨hh, hrest⟩ := hc
  have hnr : n ∉ rest := (List.nodup_cons.mp hnd).1
  refine ⟨{ st with _head := (st.heap n).next_node, heap := setNext st.heap n none },
    ?_, ⟨?_, (List.nodup_cons.mp hnd).2⟩, ?_, by simp, by simp, ?_⟩
  · simp [remove, hh, clean_next_ptr]
  · exact (chainTo_setNext hnr).mpr hrest
  · cases rest with
    | nil => exact hrest
    | cons b bs => exact hrest.1
  · intro b hb
    exact setNext_ne hb

theorem remove_notfound {st : handler} {ns : List Addr} {n : Addr} {fuel : Nat}
    (hinv : invariant st ns) (hn : n ∉ ns) (hfuel : ns.length + 1 ≤ fuel) :
    remove st (some n) fuel =
      some (true, st, (if ns = [] then [Sev.warn] else []) ++ [Sev.error]) := by
  obtain ⟨hc, hnd⟩ := hinv
  have hh : ¬(some n = st._head) := by
    intro hEq
    rcases ns with _ | ⟨a, as⟩
    · have hhn : st._head = none := hc
      rw [hhn] at hEq
      exact Option.noConfusion hEq
    · have hha : st._head = some a := hc.1
      rw [hha] at hEq
      injection hEq with hEq
      exact hn (by rw [hEq]; exact List.mem_cons_self a as)
  have hfpn := fpn_notfound hc hn hfuel
  simp [remove, hh, hfpn]

theorem remove_splice {st : handler} {ns : List Addr} {n : Addr} {fuel : Nat}
    (hinv : invariant st ns) (hn : n ∈ ns) (hh : st._head ≠ some n)
    (hfuel : ns.length + 1 ≤ fuel) :
    ∃ st' ns', remove st (some n) fuel = some (false, st', [Sev.info]) ∧
      invariant st' ns' ∧ st'._head = st._head ∧ (st'.heap n).next_node = none ∧
      (st'.heap n).data = (st.heap n).data ∧ n ∉ ns' ∧ ns'.length + 1 = ns.length := by
  obtain ⟨a, xs, ys, p, hns, hha, hfpn, hlast, hpn⟩ := fpn_found_spec hinv hn hh hfuel
  obtain ⟨hc, hnd⟩ := hinv
  subst hns
  have hnh : ¬(some n = st._head) := fun hEq => hh hEq.symm
  have hval : next st.heap (st.heap p).next_node = (st.heap n).next_node := by
    rw [hpn]
    rfl
  have hc' : chainTo st.heap (some a) ((a :: xs) ++ n :: ys) none := by
    rw [hha] at hc
    exact hc
  obtain ⟨q, hpre, hsuf⟩ := chainTo_split hc'
  obtain ⟨hq, hys⟩ := hsuf
  subst hq
  have hnd' : ((a :: xs) ++ n :: ys).Nodup := hnd
  rw [List.nodup_append] at hnd'
  obtain ⟨hnd1, hnd2, hdisj⟩ := hnd'
  have hnaxs : n ∉ a :: xs := fun hmem => (List.nodup_cons.mp hnd2).1 (by
    exact absurd (hdisj hmem (List.mem_cons_self n ys)) (by simp))
  have hpmem : p ∈ a :: xs := mem_of_lastAddr hlast
  have hpys : p ∉ ys := fun hmem => hdisj hpmem (List.mem_cons_of_mem n hmem)
  have hnys : n ∉ ys := (List.nodup_cons.mp hnd2).1
  have hpre1 : chainTo (setNext st.heap p ((st.heap n).next_node)) (some a) (a :: xs)
      ((st.heap n).next_node) :=
    chainTo_setNext_lastAddr hpre hnd1 hlast
  have hpre2 : chainTo (setNext (setNext st.heap p ((st.heap n).next_node)) n none)
      (some a) (a :: xs) ((st.heap n).next_node) :=
    (chainTo_setNext hnaxs).mpr hpre1
  have hys1 : chainTo (setNext st.heap p ((st.heap n).next_node)) ((st.heap n).next_node)
      ys none :=
    (chainTo_setNext hpys).mpr hys
  have hys2 : chainTo (setNext (setNext st.heap p ((st.heap n).next_node)) n none)
      ((st.heap n).next_node) ys none :=
    (chainTo_setNext hnys).mpr hys1
  have hjoin := chainTo_join hpre2 hys2
  refine ⟨{ st with heap := setNext (setNext st.heap p ((st.heap n).next_node)) n none }, (a :: xs) ++ ys, ?_, ⟨?_, ?_⟩, rfl, by simp, by simp, ?_, ?_⟩
  · simp [remove, hnh, hfpn, clean_next_ptr, hval]
  · rw [chain, hha]
    exact hjoin
  · rw [List.nodup_append]
    exact ⟨hnd1, (List.nodup_cons.mp hnd2).2,
      fun x hx hx' => hdisj hx (List.mem_cons_of_mem n hx')⟩
  · intro hmem
    rcases List.mem_append.mp hmem with hmem | hmem
    · exact hnaxs hmem
    · exact hnys hmem
  · simp only [List.length_append, List.length_cons]
    omega

theorem remove_none_unchanged {st : handler} {ns : List Addr} {fuel : Nat}
    (hinv : invariant st ns) (hfuel : ns.length + 1 ≤ fuel) :
    ∃ st' log, remove st none fuel = some (false, st', log) ∧ st'._head = st._head ∧
      ∀ b, st'.heap b = st.heap b := by
  obtain ⟨hc, hnd⟩ := hinv
  rcases ns with _ | ⟨a, as⟩
  · have hh : st._head = none := hc
    refine ⟨{ st with _head := none }, [], ?_, by rw [hh], fun b => rfl⟩
    simp [remove, hh, clean_next_ptr]
  · have hha : st._head = some a := hc.1
    have hnone : ¬((none : Option Addr) = st._head) := by
      rw [hha]
      simp
    have htail := tail_spec hc (by simp) hfuel
    obtain ⟨L, hlast⟩ := lastAddr_isSome (a := a) as
    rw [hlast] at htail
    have hfpn : find_preceding_node st none fuel = some (some L, []) := htail
    have hLnext : (st.heap L).next_node = none := chainTo_lastAddr_next hc hlast
    refine ⟨{ st with heap := setNext st.heap L (next st.heap (st.heap L).next_node) }, [Sev.info], ?_, rfl, ?_⟩
    · simp [remove, hnone, hfpn, clean_next_ptr]
    · intro b
      exact setNext_id (by rw [hLnext]; simp) b

theorem chain_head? {h : Heap} {p : Option Addr} :
    ∀ {ns : List Addr}, chainTo h p ns none → p = ns.head? := by
  intro ns hc
  cases ns with
  | nil => simpa using hc
  | cons a as => simpa using hc.1

theorem appendAll_spec :
    ∀ (l : List Addr) (st : handler) (ns : List Addr) (fuel : Nat),
      invariant st ns →
      (∀ b ∈ l, (st.heap b).next_node = none ∧ b ∉ ns) → l.Nodup →
      ns.length + l.length + 1 ≤ fuel →
      ∃ st', appendAll fuel st l = some st' ∧ invariant st' (ns ++ l) ∧
        ∀ b, b ∉ ns ++ l → st'.heap b = st.heap b := by
  intro l
  induction l with
  | nil =>
    intro st ns fuel hinv hl hnd hfuel
    exact ⟨st, rfl, by simpa using hinv, fun b _ => rfl⟩
  | cons a l' ih =>
    intro st ns fuel hinv hl hnd hfuel
    obtain ⟨hfr, hmem⟩ := hl a (List.mem_cons_self a l')
    have hfuel1 : ns.length + 1 ≤ fuel := by
      simp only [List.length_cons] at hfuel
      omega
    obtain ⟨st1, happ, hinv1, hhead1, hframe1⟩ := append_spec hinv hfr hmem hfuel1
    have hl' : ∀ b ∈ l', (st1.heap b).next_node = none ∧ b ∉ ns ++ [a] := by
      intro b hb
      obtain ⟨hfrb, hmemb⟩ := hl b (List.mem_cons_of_mem a hb)
      have hba : b ≠ a := by
        intro hEq
        exact (List.nodup_cons.mp hnd).1 (hEq ▸ hb)
      refine ⟨by rw [hframe1 b hmemb]; exact hfrb, ?_⟩
      intro hbm
      rcases List.mem_append.mp hbm with h1 | h1
      · exact hmemb h1
      · exact hba (by simpa using h1)
    have hfuel' : (ns ++ [a]).length + l'.length + 1 ≤ fuel := by
      simp only [List.length_append, List.length_cons, List.length_nil] at hfuel ⊢
      omega
    obtain ⟨st', hall, hinv', hframe'⟩ :=
      ih st1 (ns ++ [a]) fuel hinv1 hl' (List.nodup_cons.mp hnd).2 hfuel'
    have hassoc : ns ++ a :: l' = (ns ++ [a]) ++ l' := by simp
    refine ⟨st', ?_, by rw [hassoc]; exact hinv', ?_⟩
    · simp [appendAll, happ, hall]
    · intro b hb
      rw [hassoc] at hb
      have hb1 : b ∉ (ns ++ [a]) ++ l' := hb
      have hb2 : b ∉ ns := fun hm => hb1 (by simp [List.mem_append, hm])
      rw [hframe' b hb1, hframe1 b hb2]

theorem invariant_st1 : invariant st1 [1] :=
  ⟨⟨rfl, rfl⟩, by decide⟩

theorem invariant_st12 : invariant st12 [1, 2] :=
  ⟨⟨rfl, rfl, rfl⟩, by decide⟩

/-- C1: on any state satisfying the chain invariant, `remove(n)` reports
failure (the C++ `return 1`, here `true`) if and only if node `n` is not
reachable from `_head`, and on failure the list is left unmodified: the
head and every node's `next` field are unchanged. -/
theorem remove_fails_iff_unreachable (st : handler) (ns : List Addr) (n : Addr) (fuel : Nat)
    (hinv : invariant st ns) (hfuel : ns.length + 1 ≤ fuel) :
    ∃ b st' log, remove st (some n) fuel = some (b, st', log) ∧
      (b = true ↔ n ∉ ns) ∧
      (b = true → st'._head = st._head ∧ ∀ a, st'.heap a = st.heap a) := by
  by_cases hmem : n ∈ ns
  · by_cases hh : st._head = some n
    · obtain ⟨as, hns⟩ : ∃ as, ns = n :: as := by
        obtain ⟨hc, -⟩ := hinv
        rw [chain, hh] at hc
        exact chain_head_cons hc
      obtain ⟨st', hrem, -, -, -, -, -⟩ := remove_head hinv hns
      exact ⟨false, st', [], hrem, by simp [hmem], by simp⟩
    · obtain ⟨st', ns', hrem, -, -, -, -, -, -⟩ := remove_splice hinv hmem hh hfuel
      exact ⟨false, st', [Sev.info], hrem, by simp [hmem], by simp⟩
  · refine ⟨true, st, _, remove_notfound hinv hmem hfuel, by simp [hmem], ?_⟩
    exact fun _ => ⟨rfl, fun a => rfl⟩

theorem remove_fails_iff_unreachable_witness :
    invariant st12 [1, 2] ∧
    ∃ b st' log, remove st12 (some 3) 3 = some (b, st', log) ∧
      (b = true ↔ 3 ∉ [1, 2]) ∧
      (b = true → st'._head = st12._head ∧ ∀ a, st'.heap a = st12.heap a) :=
  ⟨invariant_st12, remove_fails_iff_unreachable st12 [1, 2] 3 3 invariant_st12 (by decide)⟩

/-- C2: the chain invariant (from `_head` every node of the list is
reached exactly once, ending at `nullptr`) holds of the empty handler, is
preserved by appending a fresh node (null `next`, not already linked),
and is preserved by every `remove`. -/
theorem invariant_empty_append_remove :
    (∀ hp : Heap, invariant (emptyHandler hp) []) ∧
    (∀ (st : handler) (ns : List Addr) (a : Addr) (fuel : Nat),
      invariant st ns → (st.heap a).next_node = none → a ∉ ns → ns.length + 1 ≤ fuel →
      ∃ st' log, append st (some a) fuel = some (st', log) ∧ invariant st' (ns ++ [a])) ∧
    (∀ (st : handler) (ns : List Addr) (t : Option Addr) (fuel : Nat),
      invariant st ns → ns.length + 1 ≤ fuel →
      ∃ b st' log, remove st t fuel = some (b, st', log) ∧ ∃ ns', invariant st' ns') := by
  refine ⟨fun hp => ⟨rfl, List.nodup_nil⟩, ?_, ?_⟩
  · intro st ns a fuel hinv hfr hmem hfuel
    obtain ⟨st', happ, hinv', -, -⟩ := append_spec hinv hfr hmem hfuel
    exact ⟨st', [], happ, hinv'⟩
  · intro st ns t fuel hinv hfuel
    rcases t with _ | n
    · obtain ⟨st', log, hrem, hh, hheap⟩ := remove_none_unchanged hinv hfuel
      refine ⟨false, st', log, hrem, ns, ?_⟩
      have hheapEq : st'.heap = st.heap := funext hheap
      obtain ⟨hc, hnd⟩ := hinv
      exact ⟨by rw [chain, hheapEq, hh]; exact hc, hnd⟩
    · by_cases hmem : n ∈ ns
      · by_cases hhead : st._head = some n
        · obtain ⟨as, hns⟩ : ∃ as, ns = n :: as := by
            obtain ⟨hc, -⟩ := hinv
            rw [chain, hhead] at hc
            exact chain_head_cons hc
          obtain ⟨st', hrem, hinv', -, -, -, -⟩ := remove_head hinv hns
          exact ⟨false, st', [], hrem, as, hinv'⟩
        · obtain ⟨st', ns', hrem, hinv', -, -, -, -, -⟩ := remove_splice hinv hmem hhead hfuel
          exact ⟨false, st', [Sev.info], hrem, ns', hinv'⟩
      · exact ⟨true, st, _, remove_notfound hinv hmem hfuel, ns, hinv⟩

theorem invariant_empty_append_remove_witness :
    invariant (emptyHandler h0) [] ∧
    (∃ st' log, append st1 (some 2) 2 = some (st', log) ∧ invariant st' ([1] ++ [2])) ∧
    (∃ b st' log, remove st12 (some 2) 3 = some (b, st', log) ∧ ∃ ns', invariant st' ns') :=
  ⟨invariant_empty_append_remove.1 h0,
   invariant_empty_append_remove.2.1 st1 [1] 2 2 invariant_st1 rfl (by decide) (by decide),
   invariant_empty_append_remove.2.2 st12 [1, 2] (some 2) 3 invariant_st12 (by decide)⟩

/-- C3: on any state satisfying the chain invariant, `find(n)` returns
`n` exactly when `n` is reachable from `_head`, and `nullptr` otherwise;
in particular after any sequence of appends of distinct fresh nodes onto
an empty handler, `find` returns every appended node and `nullptr` for a
node never appended. -/
theorem find_returns_reachable :
    (∀ (st : handler) (ns : List Addr) (n : Addr) (fuel : Nat),
      invariant st ns → ns.length + 1 ≤ fuel →
      (n ∈ ns → find st (some n) fuel = some (some n)) ∧
      (n ∉ ns → find st (some n) fuel = some none)) ∧
    (∀ (hp : Heap) (l : List Addr) (n : Addr) (fuel : Nat),
      l.Nodup → (∀ b ∈ l, (hp b).next_node = none) → l.length + 1 ≤ fuel →
      ∃ st', appendAll fuel (emptyHandler hp) l = some st' ∧
        (n ∈ l → find st' (some n) fuel = some (some n)) ∧
        (n ∉ l → find st' (some n) fuel = some none)) := by
  have main : ∀ (st : handler) (ns : List Addr) (n : Addr) (fuel : Nat),
      invariant st ns → ns.length + 1 ≤ fuel →
      (n ∈ ns → find st (some n) fuel = some (some n)) ∧
      (n ∉ ns → find st (some n) fuel = some none) := by
    intro st ns n fuel hinv hfuel
    have hs := find_spec_mem (n := n) hinv.1 hfuel
    constructor
    · intro hmem
      rw [hs, if_pos hmem]
    · intro hmem
      rw [hs, if_neg hmem]
  refine ⟨main, ?_⟩
  intro hp l n fuel hnd hfr hfuel
  have hinv0 : invariant (emptyHandler hp) [] := ⟨rfl, List.nodup_nil⟩
  obtain ⟨st', hall, hinv', -⟩ := appendAll_spec l (emptyHandler hp) [] fuel hinv0
    (fun b hb => ⟨hfr b hb, by simp⟩) hnd (by simpa using hfuel)
  exact ⟨st', hall, main st' l n fuel (by simpa using hinv') hfuel⟩

theorem find_returns_reachable_witness :
    ((1 ∈ [1, 2] → find st12 (some 1) 3 = some (some 1)) ∧
     (1 ∉ [1, 2] → find st12 (some 1) 3 = some none)) ∧
    ∃ st', appendAll 3 (emptyHandler h0) [1, 2] = some st' ∧
      (1 ∈ [1, 2] → find st' (some 1) 3 = some (some 1)) ∧
      (1 ∉ [1, 2] → find st' (some 1) 3 = some none) :=
  ⟨find_returns_reachable.1 st12 [1, 2] 1 3 invariant_st12 (by decide),
   find_returns_reachable.2 h0 [1, 2] 1 3 (by decide) (fun b _ => rfl) (by decide)⟩

/-- C4: after appending a sequence of distinct fresh nodes onto an empty
handler, `head()` is the first appended node and `tail()` is the last
appended node; on the empty sequence both are `nullptr`. -/
theorem head_tail_of_append_sequence (hp : Heap) (l : List Addr) (fuel : Nat)
    (hnd : l.Nodup) (hfr : ∀ b ∈ l, (hp b).next_node = none)
    (hfuel : l.length + 1 ≤ fuel) :
    ∃ st', appendAll fuel (emptyHandler hp) l = some st' ∧
      head st' = l.head? ∧ ∃ log, tail st' fuel = some (lastAddr l, log) := by
  have hinv0 : invariant (emptyHandler hp) [] := ⟨rfl, List.nodup_nil⟩
  obtain ⟨st', hall, hinv', -⟩ := appendAll_spec l (emptyHandler hp) [] fuel hinv0
    (fun b hb => ⟨hfr b hb, by simp⟩) hnd (by simpa using hfuel)
  have hinv'' : invariant st' l := by simpa using hinv'
  refine ⟨st', hall, chain_head? hinv''.1, ?_⟩
  rcases l with _ | ⟨a, as⟩
  · have hh : st'._head = none := hinv''.1
    exact ⟨[Sev.warn], by rw [tail_empty hh, lastAddr_nil]⟩
  · exact ⟨[], tail_spec hinv''.1 (by simp) hfuel⟩

theorem head_tail_of_append_sequence_witness :
    ∃ st', appendAll 3 (emptyHandler h0) [1, 2] = some st' ∧
      head st' = [1, 2].head? ∧ ∃ log, tail st' 3 = some (lastAddr [1, 2], log) :=
  head_tail_of_append_sequence h0 [1, 2] 3 (by decide) (fun b _ => rfl) (by decide)

/-- C5: on any state satisfying the chain invariant,
`find_preceding_node(n)` returns `nullptr` on an empty list, the head
itself when `n` is the head, `nullptr` when `n` is not reachable, and
otherwise the unique node whose `next` is `n`. -/
theorem find_preceding_node_cases (st : handler) (ns : List Addr) (n : Addr) (fuel : Nat)
    (hinv : invariant st ns) (hfuel : ns.length + 1 ≤ fuel) :
    (st._head = none → find_preceding_node st (some n) fuel = some (none, [Sev.warn])) ∧
    (st._head = some n → find_preceding_node st (some n) fuel = some (some n, [])) ∧
    (n ∉ ns → ∃ log, find_preceding_node st (some n) fuel = some (none, log)) ∧
    (n ∈ ns → st._head ≠ some n →
      ∃ p, find_preceding_node st (some n) fuel = some (some p, []) ∧
        (st.heap p).next_node = some n ∧ p ∈ ns ∧
        ∀ q ∈ ns, (st.heap q).next_node = some n → q = p) := by
  have hc : chainTo st.heap st._head ns none := hinv.1
  refine ⟨fun hh => fpn_empty hh, fun hh => fpn_head hh, ?_, ?_⟩
  · intro hmem
    exact ⟨_, fpn_notfound hinv.1 hmem hfuel⟩
  · intro hmem hh
    obtain ⟨a, xs, ys, p, hns, hha, hfpn, hlast, hpn⟩ := fpn_found_spec hinv hmem hh hfuel
    have hpmem : p ∈ ns := by
      rw [hns]
      have hpax : p ∈ a :: xs := mem_of_lastAddr hlast
      rcases List.mem_cons.mp hpax with rfl | hx
      · exact List.mem_cons_self p _
      · exact List.mem_cons_of_mem a (List.mem_append.mpr (Or.inl hx))
    refine ⟨p, hfpn, hpn, hpmem, ?_⟩
    intro q hq hqn
    exact chain_pred_unique hc hinv.2 hq hpmem hqn hpn

theorem find_preceding_node_cases_witness :
    (st12._head = none → find_preceding_node st12 (some 2) 3 = some (none, [Sev.warn])) ∧
    (st12._head = some 2 → find_preceding_node st12 (some 2) 3 = some (some 2, [])) ∧
    (2 ∉ [1, 2] → ∃ log, find_preceding_node st12 (some 2) 3 = some (none, log)) ∧
    (2 ∈ [1, 2] → st12._head ≠ some 2 →
      ∃ p, find_preceding_node st12 (some 2) 3 = some (some p, []) ∧
        (st12.heap p).next_node = some 2 ∧ p ∈ [1, 2] ∧
        ∀ q ∈ [1, 2], (st12.heap q).next_node = some 2 → q = p) :=
  find_preceding_node_cases st12 [1, 2] 2 3 invariant_st12 (by decide)

/-- C6: after a successful `remove(n)` the node's `next` is cleared to
`nullptr` and its payload pointer is untouched, and a subsequent
`append(n)` re-links `n` as the tail of a well-formed (invariant
satisfying, `n`-terminated) chain. -/
theorem remove_clears_next_then_append_relinks (st : handler) (ns : List Addr) (n : Addr)
    (fuel : Nat) (hinv : invariant st ns) (hmem : n ∈ ns) (hfuel : ns.length + 1 ≤ fuel) :
    ∃ st' log, remove st (some n) fuel = some (false, st', log) ∧
      (st'.heap n).next_node = none ∧ (st'.heap n).data = (st.heap n).data ∧
      ∃ st'' ns', append st' (some n) fuel = some (st'', []) ∧
        invariant st'' (ns' ++ [n]) ∧ tail st'' fuel = some (some n, []) := by
  have htail_of : ∀ (su : handler) (ms : List Addr), invariant su (ms ++ [n]) →
      (ms ++ [n]).length + 1 ≤ fuel → tail su fuel = some (some n, []) := by
    intro su ms hi hfl
    have hts := tail_spec hi.1 (by simp) hfl
    rwa [lastAddr_append_singleton] at hts
  by_cases hh : st._head = some n
  · obtain ⟨as, hns⟩ : ∃ as, ns = n :: as := by
      have hc : chainTo st.heap (some n) ns none := by rw [← hh]; exact hinv.1
      exact chain_head_cons hc
    obtain ⟨st', hrem, hinv', -, hnext', hdata', -⟩ := remove_head hinv hns
    have hnr : n ∉ as := by
      have hnd := hinv.2
      rw [hns] at hnd
      exact (List.nodup_cons.mp hnd).1
    have hfuel' : as.length + 1 ≤ fuel := by
      rw [hns] at hfuel
      simp only [List.length_cons] at hfuel
      omega
    obtain ⟨st'', happ, hinv'', -, -⟩ := append_spec hinv' hnext' hnr hfuel'
    refine ⟨st', [], hrem, hnext', hdata', st'', as, happ, hinv'', ?_⟩
    apply htail_of st'' as hinv''
    rw [hns] at hfuel
    simp only [List.length_append, List.length_cons, List.length_nil] at hfuel ⊢
    omega
  · obtain ⟨st', ns', hrem, hinv', -, hnext', hdata', hnmem', hlen'⟩ :=
      remove_splice hinv hmem hh hfuel
    have hfuel' : ns'.length + 1 ≤ fuel := by omega
    obtain ⟨st'', happ, hinv'', -, -⟩ := append_spec hinv' hnext' hnmem' hfuel'
    refine ⟨st', [Sev.info], hrem, hnext', hdata', st'', ns', happ, hinv'', ?_⟩
    apply htail_of st'' ns' hinv''
    simp only [List.length_append, List.length_cons, List.length_nil]
    omega

theorem remove_clears_next_then_append_relinks_witness :
    ∃ st' log, remove st12 (some 2) 3 = some (false, st', log) ∧
      (st'.heap 2).next_node = none ∧ (st'.heap 2).data = (st12.heap 2).data ∧
      ∃ st'' ns', append st' (some 2) 3 = some (st'', []) ∧
        invariant st'' (ns' ++ [2]) ∧ tail st'' 3 = some (some 2, []) :=
  remove_clears_next_then_append_relinks st12 [1, 2] 2 3 invariant_st12 (by decide) (by decide)

/-- C7 counterexample: removing the head node `1` of the concrete
one-node list `st1` (the chain `[1]`) succeeds — `remove` takes the head
branch and returns the C++ `0` (`false`) — yet the emitted diagnostic
list is empty, so this successful removal emits no informational
diagnostic, refuting "every successful removal emits an informational
diagnostic". -/
theorem remove_head_success_without_info :
    invariant st1 [1] ∧
    remove st1 (some 1) 2 = some (false, { heap := setNext h0 1 none, _head := none }, []) :=
  ⟨invariant_st1, rfl⟩

/-- C7 amended: a successful removal through the splice branch (target
distinct from the head) emits an informational diagnostic, a successful
head-case removal emits no diagnostic at all, `find_preceding_node` on
an empty list emits a warning diagnostic, and a removal that reports
failure emits an error diagnostic; the diagnostics are side channels
only (the head-case conjunct exhibits the returned value in full). -/
theorem remove_diagnostics (st : handler) (t : Option Addr) (fuel : Nat) :
    (st._head = none → find_preceding_node st t fuel = some (none, [Sev.warn])) ∧
    (t = st._head →
      remove st t fuel = some (false, clean_next_ptr { st with _head := next st.heap t } t, [])) ∧
    (∀ b st' log, remove st t fuel = some (b, st', log) → b = false → t ≠ st._head →
      Sev.info ∈ log) ∧
    (∀ b st' log, remove st t fuel = some (b, st', log) → b = true → Sev.error ∈ log) := by
  refine ⟨fun hh => fpn_empty hh, ?_, ?_, ?_⟩
  · intro ht
    unfold remove
    rw [if_pos ht]
  · intro b st' log hrem hb ht
    subst hb
    unfold remove at hrem
    rw [if_neg ht] at hrem
    rcases hfpn : find_preceding_node st t fuel with _ | ⟨r, lg⟩ <;> rw [hfpn] at hrem
    · exact Option.noConfusion hrem
    · rcases r with _ | p
      · simp at hrem
      · simp only [Option.some.injEq, Prod.mk.injEq] at hrem
        obtain ⟨-, -, hlog⟩ := hrem
        rw [← hlog]
        simp
  · intro b st' log hrem hb
    subst hb
    by_cases ht : t = st._head
    · unfold remove at hrem
      rw [if_pos ht] at hrem
      simp at hrem
    · unfold remove at hrem
      rw [if_neg ht] at hrem
      rcases hfpn : find_preceding_node st t fuel with _ | ⟨r, lg⟩ <;> rw [hfpn] at hrem
      · exact Option.noConfusion hrem
      · rcases r with _ | p
        · simp only [Option.some.injEq, Prod.mk.injEq] at hrem
          obtain ⟨-, -, hlog⟩ := hrem
          rw [← hlog]
          simp
        · simp at hrem

theorem remove_diagnostics_witness :
    Sev.info ∈ [Sev.info] ∧ Sev.error ∈ [Sev.error] ∧
    find_preceding_node (emptyHandler h0) (some 5) 1 = some (none, [Sev.warn]) :=
  ⟨(remove_diagnostics st12 (some 2) 3).2.2.1 false
      { heap := setNext (setNext h12 1 none) 2 none, _head := some 1 } [Sev.info] rfl rfl
      (by decide),
   (remove_diagnostics st1 (some 7) 2).2.2.2 true st1 [Sev.error] rfl rfl,
   (remove_diagnostics (emptyHandler h0) (some 5) 1).1 rfl⟩

/-- C8: on any state satisfying the chain invariant every operation
terminates, with the traversal loops needing no more fuel than the chain
length plus one loop-condition test (`next` and `head` are total
functions of the embedding by construction). -/
theorem operations_terminate (st : handler) (ns : List Addr) (t u : Option Addr) (fuel : Nat)
    (hinv : invariant st ns) (hfuel : ns.length + 1 ≤ fuel) :
    (find st t fuel).isSome ∧ (find_preceding_node st t fuel).isSome ∧
    (tail st fuel).isSome ∧ (append st u fuel).isSome ∧ (remove st t fuel).isSome := by
  obtain ⟨hc, hnd⟩ := hinv
  refine ⟨find_isSome hc hfuel, fpn_isSome hc hfuel,
    show (find_preceding_node st none fuel).isSome from fpn_isSome hc hfuel,
    append_isSome hc hfuel, ?_⟩
  by_cases ht : t = st._head
  · unfold remove
    rw [if_pos ht]
    rfl
  · have hf := fpn_isSome (t := t) hc hfuel
    obtain ⟨r, hr⟩ := Option.isSome_iff_exists.mp hf
    unfold remove
    rw [if_neg ht, hr]
    rcases r with ⟨r1, lg⟩
    rcases r1 with _ | p <;> rfl

theorem operations_terminate_witness :
    (find st12 (some 2) 3).isSome ∧ (find_preceding_node st12 (some 2) 3).isSome ∧
    (tail st12 3).isSome ∧ (append st12 (some 5) 3).isSome ∧ (remove st12 (some 2) 3).isSome :=
  operations_terminate st12 [1, 2] (some 2) (some 5) 3 invariant_st12 (by decide)

/-- C9: `remove(nullptr)` always reports success (the C++ `return 0`) and
leaves the list unchanged — on an empty list via the head branch, on a
non-empty list via `find_preceding_node(nullptr)` returning the tail and
the splice rewriting the tail's already-null `next`; no not-found failure
is ever reported for a null target. -/
theorem remove_null_target_succeeds (st : handler) (ns : List Addr) (fuel : Nat)
    (hinv : invariant st ns) (hfuel : ns.length + 1 ≤ fuel) :
    ∃ st' log, remove st none fuel = some (false, st', log) ∧
      st'._head = st._head ∧ ∀ b, st'.heap b = st.heap b :=
  remove_none_unchanged hinv hfuel

theorem remove_null_target_succeeds_witness :
    ∃ st' log, remove st12 none 3 = some (false, st', log) ∧
      st'._head = st12._head ∧ ∀ b, st'.heap b = st12.heap b :=
  remove_null_target_succeeds st12 [1, 2] 3 invariant_st12 (by decide)

/-- C10: `tail()` on an empty handler emits the empty-list warning even
though it succeeds as a query returning `nullptr`, while `append` onto a
list of one or more nodes emits no diagnostic at all. -/
theorem tail_empty_warns_append_never_warns :
    (∀ (hp : Heap) (fuel : Nat), tail (emptyHandler hp) fuel = some (none, [Sev.warn])) ∧
    (∀ (st : handler) (ns : List Addr) (t : Option Addr) (fuel : Nat),
      invariant st ns → ns ≠ [] → ns.length + 1 ≤ fuel →
      ∃ st', append st t fuel = some (st', [])) :=
  ⟨fun _ _ => tail_empty rfl,
   fun _ _ _ _ hinv hne hfuel => append_nonempty hinv.1 hne hfuel⟩

theorem tail_empty_warns_append_never_warns_witness :
    tail (emptyHandler h0) 1 = some (none, [Sev.warn]) ∧
    ∃ st', append st12 (some 9) 3 = some (st', []) :=
  ⟨tail_empty_warns_append_never_warns.1 h0 1,
   tail_empty_warns_append_never_warns.2 st12 [1, 2] (some 9) 3 invariant_st12 (by decide)
     (by decide)⟩

end sl_list
